/-
Verification of the OHLC aggregation service (github.com/azanium/ohlc).

Shallow embedding of the core Go code:
  * internal/candlestick/aggregator.go : the per-symbol OHLC aggregator
    (`Process`, `shouldStartNewCandle`, the `max`/`min` helpers).
  * internal/streaming/service.go     : the fan-out broker
    (`Stream`, `Subscribe`, `unsubscribe`).
  * internal/binance/client.go        : the upstream `Connect` retry loop
    (both source variants share the identical control flow).

Modelling conventions:
  * `time.Time` becomes `Int` (nanoseconds); `time.Time.After a b` is `b < a`;
    `time.Time.Truncate` becomes `truncate` below (round down to a multiple
    of the interval, identity for non-positive intervals, as in Go).
  * `float64` prices and quantities become `ℚ` (exact arithmetic stands in
    for IEEE doubles; the code only compares, takes max/min, and adds).
  * The Go map `map[Symbol]*OHLC` becomes a total function
    `Symbol → Option OHLC`.
  * The storage collaborator is an oracle argument: `storeRes = none` models
    a successful `StoreTick`, `storeRes = some msg` a failed one.
  * Channels in the broker are identified by `Nat` ids; the buffered contents
    live in a separate `Nat → List OHLC` map, with the non-blocking send
    modelled by `trySend` (append if below capacity, drop otherwise).
-/
import Mathlib

namespace candlestick

/-- `Symbol` is an opaque string key (types.go). -/
abbrev Symbol := String

/-- A trade tick (types.go `Tick`). Timestamp in integer nanoseconds. -/
structure Tick where
  Symbol : Symbol
  Price : ℚ
  Quantity : ℚ
  Timestamp : Int
deriving DecidableEq, Repr

/-- An OHLC candlestick (types.go `OHLC`). -/
structure OHLC where
  Symbol : Symbol
  Open : ℚ
  High : ℚ
  Low : ℚ
  Close : ℚ
  Volume : ℚ
  OpenTime : Int
  CloseTime : Int
deriving DecidableEq, Repr

/-- Go's `time.Time.Truncate`: round down to a multiple of `d`; for
`d ≤ 0` the time is returned unchanged. -/
def truncate (t d : Int) : Int :=
  if d ≤ 0 then t else t - t % d

/-- aggregator.go helper `max` on float64. -/
def maxFl (a b : ℚ) : ℚ := if a > b then a else b

/-- aggregator.go helper `min` on float64. -/
def minFl (a b : ℚ) : ℚ := if a < b then a else b

/-- The aggregator state: the fixed interval and the `current` map
(aggregator.go `aggregator`). -/
structure Aggregator where
  interval : Int
  current : Symbol → Option OHLC

/-- aggregator.go `NewAggregator`: empty `current` map. -/
def NewAggregator (interval : Int) : Aggregator :=
  { interval := interval, current := fun _ => none }

/-- Store an open OHLC under a symbol (the map write `a.current[sym] = &o`). -/
def setCurrent (a : Aggregator) (sym : Symbol) (o : OHLC) : Aggregator :=
  { a with current := fun s => if s = sym then some o else a.current s }

/-- aggregator.go `shouldStartNewCandle`: true for a nil current OHLC,
otherwise `timestamp.After(current.CloseTime)` (strict >). -/
def shouldStartNewCandle (timestamp : Int) (current : Option OHLC) : Bool :=
  match current with
  | none => true
  | some c => decide (c.CloseTime < timestamp)

/-- aggregator.go `Process`. `storeRes` is the result of
`a.storage.StoreTick(&tick)`: `some msg` is a failure, which aborts the
call with an error and leaves the state untouched. Returns the completed
OHLC (if a rollover happened) together with the updated state. -/
def Process (a : Aggregator) (storeRes : Option String) (tick : Tick) :
    Except String (Option OHLC) × Aggregator :=
  match storeRes with
  | some msg => (Except.error ("failed to store tick: " ++ msg), a)
  | none =>
    let cur := a.current tick.Symbol
    if cur.isNone || shouldStartNewCandle tick.Timestamp cur then
      let startTime := truncate tick.Timestamp a.interval
      (Except.ok cur,
        setCurrent a tick.Symbol
          { Symbol := tick.Symbol
            Open := tick.Price
            High := tick.Price
            Low := tick.Price
            Close := tick.Price
            Volume := tick.Quantity
            OpenTime := startTime
            CloseTime := startTime + a.interval })
    else
      match cur with
      | some ohlc =>
        (Except.ok none,
          setCurrent a tick.Symbol
            { ohlc with
                High := maxFl ohlc.High tick.Price
                Low := minFl ohlc.Low tick.Price
                Close := tick.Price
                Volume := ohlc.Volume + tick.Quantity })
      | none => (Except.ok none, a)

/-- Run `Process` over a list of ticks (storage always succeeding, as in the
coordinator's consumer loop), collecting the closed OHLCs in emission
order. -/
def runTicks (a : Aggregator) : List Tick → Aggregator × List OHLC
  | [] => (a, [])
  | t :: ts =>
    let step := Process a none t
    let rest := runTicks step.2 ts
    match step.1 with
    | Except.ok (some o) => (rest.1, o :: rest.2)
    | _ => rest

/-- The closed OHLCs emitted for one symbol. -/
def emittedFor (sym : Symbol) (out : List OHLC) : List OHLC :=
  out.filter (fun o => o.Symbol = sym)

end candlestick

namespace streaming

open candlestick

/-- streaming/service.go `Service`: the subscriber registry plus the two
configured capacities. Channels are modelled by `Nat` identifiers (Go channel
values compare by identity). -/
structure Service where
  maxChannels : Nat
  channelSize : Nat
  subscribers : Symbol → List Nat

/-- streaming/service.go `NewService`. -/
def NewService (maxChannels channelSize : Nat) : Service :=
  { maxChannels := maxChannels
    channelSize := channelSize
    subscribers := fun _ => [] }

/-- The buffered contents of every channel, by id. -/
def QueueMap := Nat → List OHLC

/-- A non-blocking channel send (`select { case ch <- ohlc: default: }`):
append when the buffer is below capacity, otherwise drop. -/
def trySend (cap : Nat) (q : List OHLC) (o : OHLC) : List OHLC :=
  if q.length < cap then q ++ [o] else q

/-- The fan-out loop body of streaming/service.go `Stream`: one non-blocking
send per registered channel, in registry order. -/
def sendAll (cap : Nat) (o : OHLC) : List Nat → QueueMap → QueueMap
  | [], qm => qm
  | c :: rest, qm =>
    sendAll cap o rest (fun c2 => if c2 = c then trySend cap (qm c) o else qm c2)

/-- streaming/service.go `Stream`: broadcast to every subscriber of the
OHLC's symbol; always returns a nil error (first component `none`). -/
def Stream (s : Service) (qm : QueueMap) (o : OHLC) : Option String × QueueMap :=
  (none, sendAll s.channelSize o (s.subscribers o.Symbol) qm)

/-- streaming/service.go `Subscribe`: append the channel to the symbol's
subscriber list (no capacity check appears in the source). -/
def Subscribe (s : Service) (symbol : Symbol) (ch : Nat) : Service :=
  { s with
      subscribers := fun s2 =>
        if s2 = symbol then s.subscribers symbol ++ [ch] else s.subscribers s2 }

/-- The Go loop of streaming/service.go `unsubscribe`: drop the first
entry equal (by identity) to the channel, then stop. -/
def removeFirst : List Nat → Nat → List Nat
  | [], _ => []
  | x :: xs, ch => if x = ch then xs else x :: removeFirst xs ch

/-- streaming/service.go `unsubscribe`. -/
def unsubscribe (s : Service) (symbol : Symbol) (ch : Nat) : Service :=
  { s with
      subscribers := fun s2 =>
        if s2 = symbol then removeFirst (s.subscribers symbol) ch
        else s.subscribers s2 }

/-- The state the coordinator's consumer loop (service.go `Start`) threads
through one published OHLC: the aggregator plus the subscriber queues. The
broker's `Stream` call only ever touches the queue component. -/
structure PipeState where
  agg : Aggregator
  queues : QueueMap

/-- The publish step of the consumer loop: `s.streamer.Stream(ohlc)`. -/
def publishOhlc (s : Service) (ps : PipeState) (o : OHLC) :
    Option String × PipeState :=
  let r := Stream s ps.queues o
  (r.1, { ps with queues := r.2 })

end streaming

namespace binance

/-- Outcome of one dial-plus-subscribe attempt against one endpoint:
the dial succeeds and the subscription write succeeds (`ok`), the dial
fails (`dialFail`), or the dial succeeds but `WriteJSON` of the
subscription request fails (`subFail`). -/
inductive AttemptResult
  | ok
  | dialFail
  | subFail
deriving DecidableEq, Repr

/-- What binance `Connect` returns: a live connection (with the endpoint
and the retry index that succeeded), one of the two cancellation returns,
one of the two exhaustion errors, or the unreachable fallthrough return. -/
inductive ConnectOutcome
  | connected (endpoint : String) (retry : Nat)
  | cancelledTop
  | cancelledDelay
  | dialExhausted
  | subExhausted
  | noEndpoints
deriving DecidableEq, Repr

/-- Observable events of a `Connect` run: a backoff wait of a given length,
or a dial attempt at (endpoint, retry index). -/
inductive CEv
  | wait (d : Nat)
  | dial (endpoint : String) (retry : Nat)
deriving DecidableEq, Repr

/-- binance/client.go `websocketEndpoints`. -/
def websocketEndpoints : List String :=
  ["wss://stream.binance.com:9443/ws",
   "wss://stream-alt1.binance.com:9443/ws",
   "wss://stream-alt2.binance.com:9443/ws"]

/-- binance/client.go: `maxRetries := 5`. -/
def maxRetries : Nat := 5

/-- binance/client.go: `baseDelay := time.Second` (taken as the time unit). -/
def baseDelay : Nat := 1

/-- The inner retry loop of `Connect` for one endpoint. `outcome ep k` is
what attempt `k` against endpoint `ep` would yield; `done n` is whether the
cancellation context has fired by the `n`-th cancellation checkpoint (the
top-of-loop `select` and the in-delay `select` each consume one checkpoint).
`k` is the current retry index, `fuel` the remaining attempts
(`k + fuel = maxRetries` throughout), `clock` the next checkpoint index.
Returns the event trace, the next checkpoint index, and `none` when the
loop ends without a `return` (so the next endpoint is tried). -/
def connectEp (outcome : String → Nat → AttemptResult) (done : Nat → Bool)
    (base : Nat) (ep : String) (isLast : Bool) :
    Nat → Nat → Nat → List CEv × Nat × Option ConnectOutcome
  | _, 0, clock => ([], clock, none)
  | k, fuel + 1, clock =>
    if done clock then ([], clock + 1, some ConnectOutcome.cancelledTop)
    else if k ≠ 0 ∧ done (clock + 1) = true then
      ([CEv.wait (base * 2 ^ k)], clock + 2, some ConnectOutcome.cancelledDelay)
    else
      let preWait : List CEv := if k = 0 then [] else [CEv.wait (base * 2 ^ k)]
      let clock1 : Nat := if k = 0 then clock + 1 else clock + 2
      match outcome ep k with
      | AttemptResult.ok =>
        (preWait ++ [CEv.dial ep k], clock1, some (ConnectOutcome.connected ep k))
      | AttemptResult.dialFail =>
        if fuel = 0 then
          (preWait ++ [CEv.dial ep k], clock1,
            if isLast then some ConnectOutcome.dialExhausted else none)
        else
          let r := connectEp outcome done base ep isLast (k + 1) fuel clock1
          (preWait ++ CEv.dial ep k :: r.1, r.2.1, r.2.2)
      | AttemptResult.subFail =>
        if fuel = 0 then
          (preWait ++ [CEv.dial ep k], clock1,
            if isLast then some ConnectOutcome.subExhausted else none)
        else
          let r := connectEp outcome done base ep isLast (k + 1) fuel clock1
          (preWait ++ CEv.dial ep k :: r.1, r.2.1, r.2.2)

/-- The outer endpoint loop of `Connect`: endpoints in list order, the
final fallthrough return mapped to `noEndpoints`. -/
def connectEps (outcome : String → Nat → AttemptResult) (done : Nat → Bool)
    (base mr : Nat) : List String → Nat → List CEv × Nat × ConnectOutcome
  | [], clock => ([], clock, ConnectOutcome.noEndpoints)
  | e :: rest, clock =>
    let r := connectEp outcome done base e rest.isEmpty 0 mr clock
    match r.2.2 with
    | some out => (r.1, r.2.1, out)
    | none =>
      let r2 := connectEps outcome done base mr rest r.2.1
      (r.1 ++ r2.1, r2.2.1, r2.2.2)

/-- binance/client.go `Connect` (the network and the cancellation context
abstracted into the `outcome` and `done` oracles). -/
def Connect (outcome : String → Nat → AttemptResult) (done : Nat → Bool) :
    List CEv × Nat × ConnectOutcome :=
  connectEps outcome done baseDelay maxRetries websocketEndpoints 0

/-- The canonical event schedule for attempts `k, k+1, …, k+j-1` against one
endpoint, written from the spec's words: before retry attempt `k ≥ 1` a wait
of `base · 2^k`, then the dial. -/
def epTrace (base : Nat) (ep : String) : Nat → Nat → List CEv
  | _, 0 => []
  | k, j + 1 =>
    (if k = 0 then [] else [CEv.wait (base * 2 ^ k)]) ++
      CEv.dial ep k :: epTrace base ep (k + 1) j

/-- The full canonical schedule over a list of endpoints, `mr` attempts
each. -/
def fullTrace (base mr : Nat) (eps : List String) : List CEv :=
  (eps.map fun e => epTrace base e 0 mr).flatten

end binance

namespace candlestick

/-- Instrumented aggregator state: each open OHLC carries the list of ticks
folded into its window so far (ghost data; the OHLC part follows
aggregator.go exactly). -/
structure GAggregator where
  interval : Int
  current : Symbol → Option (OHLC × List Tick)

/-- The instrumented empty state. -/
def newG (interval : Int) : GAggregator :=
  { interval := interval, current := fun _ => none }

/-- Map write for the instrumented state. -/
def gSet (a : GAggregator) (sym : Symbol) (v : OHLC × List Tick) : GAggregator :=
  { a with current := fun s => if s = sym then some v else a.current s }

/-- Instrumented `Process` (storage succeeding): identical branching to
`Process`, additionally recording which ticks are folded into each window. -/
def ProcessG (a : GAggregator) (tick : Tick) :
    Option (OHLC × List Tick) × GAggregator :=
  let cur := a.current tick.Symbol
  if cur.isNone || shouldStartNewCandle tick.Timestamp (cur.map Prod.fst) then
    let startTime := truncate tick.Timestamp a.interval
    (cur,
      gSet a tick.Symbol
        ({ Symbol := tick.Symbol
           Open := tick.Price
           High := tick.Price
           Low := tick.Price
           Close := tick.Price
           Volume := tick.Quantity
           OpenTime := startTime
           CloseTime := startTime + a.interval }, [tick]))
  else
    match cur with
    | some (ohlc, contrib) =>
      (none,
        gSet a tick.Symbol
          ({ ohlc with
              High := maxFl ohlc.High tick.Price
              Low := minFl ohlc.Low tick.Price
              Close := tick.Price
              Volume := ohlc.Volume + tick.Quantity }, contrib ++ [tick]))
    | none => (none, a)

/-- Run the instrumented aggregator over a tick list, collecting the closed
windows with their contributing ticks. -/
def runG (a : GAggregator) : List Tick → GAggregator × List (OHLC × List Tick)
  | [] => (a, [])
  | t :: ts =>
    let step := ProcessG a t
    let rest := runG step.2 ts
    match step.1 with
    | some p => (rest.1, p :: rest.2)
    | none => rest

/-- Forget the ghost tick lists. -/
def projG (a : GAggregator) : Aggregator :=
  { interval := a.interval, current := fun s => (a.current s).map Prod.fst }

/-- The ghost tick list of an optional open window (empty when none). -/
def contribOf : Option (OHLC × List Tick) → List Tick
  | some p => p.2
  | none => []

/-- The candle `Process` opens for a tick (the record literal of
aggregator.go lines 53-62). -/
def newCandle (interval : Int) (t : Tick) : OHLC :=
  { Symbol := t.Symbol
    Open := t.Price
    High := t.Price
    Low := t.Price
    Close := t.Price
    Volume := t.Quantity
    OpenTime := truncate t.Timestamp interval
    CloseTime := truncate t.Timestamp interval + interval }

/-- The update `Process` applies to an open candle (aggregator.go
lines 68-71). -/
def extendCandle (o : OHLC) (t : Tick) : OHLC :=
  { o with
      High := maxFl o.High t.Price
      Low := minFl o.Low t.Price
      Close := t.Price
      Volume := o.Volume + t.Quantity }

/-- A window together with its contributing ticks is well formed: prices
bracket correctly, the volume is nonnegative and is the sum of the
contributing ticks' quantities. -/
def GoodPair (p : OHLC × List Tick) : Prop :=
  p.1.Low ≤ min p.1.Open p.1.Close ∧
  max p.1.Open p.1.Close ≤ p.1.High ∧
  0 ≤ p.1.Volume ∧
  p.1.Volume = (p.2.map Tick.Quantity).sum

/-- Invariant of the instrumented aggregator state: every open window is
stored under its own symbol and is well formed. -/
def InvG (a : GAggregator) : Prop :=
  ∀ s p, a.current s = some p → p.1.Symbol = s ∧ GoodPair p

/-- Time-grid invariant of the aggregator state: every open window is
stored under its own symbol, its `openTime` sits on the interval grid, and
its width is exactly the interval. -/
def AlignedState (a : Aggregator) : Prop :=
  ∀ s o, a.current s = some o →
    o.Symbol = s ∧ o.OpenTime % a.interval = 0 ∧
    o.CloseTime = o.OpenTime + a.interval

end candlestick

/-! Concrete fixtures used by counterexamples and witnesses. -/

/-- An open one-minute candle for BTCUSDT over `[0, 60)`. -/
def W0 : candlestick.OHLC :=
  { Symbol := "BTCUSDT", Open := 100, High := 110, Low := 90, Close := 105,
    Volume := 2, OpenTime := 0, CloseTime := 60 }

/-- An aggregator (interval 60) holding `W0` open for BTCUSDT. -/
def agg0 : candlestick.Aggregator :=
  { interval := 60, current := fun s => if s = "BTCUSDT" then some W0 else none }

/-- A tick landing exactly on `W0.CloseTime`. -/
def tickAtClose : candlestick.Tick :=
  { Symbol := "BTCUSDT", Price := 200, Quantity := 3, Timestamp := 60 }

/-- A tick strictly after `W0.CloseTime`. -/
def tickAfterClose : candlestick.Tick :=
  { Symbol := "BTCUSDT", Price := 200, Quantity := 3, Timestamp := 61 }

/-- A tick inside `W0`'s window. -/
def tickInWindow : candlestick.Tick :=
  { Symbol := "BTCUSDT", Price := 120, Quantity := 1, Timestamp := 30 }

/-- Three BTCUSDT ticks: two in the window `[0, 60)`, one after it. -/
def ticksA : List candlestick.Tick :=
  [{ Symbol := "BTCUSDT", Price := 100, Quantity := 1, Timestamp := 5 },
   { Symbol := "BTCUSDT", Price := 110, Quantity := 2, Timestamp := 30 },
   { Symbol := "BTCUSDT", Price := 95, Quantity := 1, Timestamp := 65 }]

/-- A broker whose single allowed subscription slot is already taken. -/
def svcFull : streaming.Service :=
  { maxChannels := 1, channelSize := 10,
    subscribers := fun s => if s = "BTCUSDT" then [0] else [] }

/-- A broker with two subscriptions for BTCUSDT, channel 7 listed first. -/
def svcDup : streaming.Service :=
  { maxChannels := 100, channelSize := 10,
    subscribers := fun s => if s = "BTCUSDT" then [7, 8] else [] }

/-- A broker with one subscription (channel 8) for BTCUSDT. -/
def svcOne : streaming.Service :=
  { maxChannels := 100, channelSize := 10,
    subscribers := fun s => if s = "BTCUSDT" then [8] else [] }

/-! Helper lemmas about the embedded primitives. -/

namespace candlestick

theorem truncate_of_pos {t I : Int} (hI : 0 < I) :
    truncate t I = t - t % I := by
  simp [truncate, not_le.mpr hI]

theorem truncate_eq_mul {t I : Int} (hI : 0 < I) :
    truncate t I = I * (t / I) := by
  rw [truncate_of_pos hI]
  have := Int.ediv_add_emod t I
  omega

theorem truncate_emod {t I : Int} (hI : 0 < I) :
    (truncate t I) % I = 0 := by
  rw [truncate_eq_mul hI]
  simp [Int.mul_emod_right]

theorem truncate_le {t I : Int} (hI : 0 < I) : truncate t I ≤ t := by
  rw [truncate_of_pos hI]
  have := Int.emod_nonneg t (ne_of_gt hI)
  omega

theorem lt_truncate_add {t I : Int} (hI : 0 < I) : t < truncate t I + I := by
  rw [truncate_of_pos hI]
  have := Int.emod_lt_of_pos t hI
  omega

theorem le_truncate {t I c : Int} (hI : 0 < I) (hc : c % I = 0)
    (hct : c ≤ t) : c ≤ truncate t I := by
  obtain ⟨k, hk⟩ := Int.dvd_of_emod_eq_zero hc
  rw [truncate_eq_mul hI]
  have hk2 : k ≤ t / I := by
    apply Int.le_ediv_iff_mul_le hI |>.mpr
    calc k * I = c := by rw [hk]; ring
    _ ≤ t := hct
  calc c = I * k := hk
  _ ≤ I * (t / I) := by
    exact mul_le_mul_of_nonneg_left hk2 (le_of_lt hI)

theorem maxFl_eq_max (a b : ℚ) : maxFl a b = max a b := by
  rcases le_or_lt a b with h | h
  · simp [maxFl, max_eq_right h, not_lt.mpr h]
  · simp [maxFl, max_eq_left (le_of_lt h), h]

theorem minFl_eq_min (a b : ℚ) : minFl a b = min a b := by
  rcases le_or_lt b a with h | h
  · simp [minFl, min_eq_right h, not_lt.mpr h]
  · simp [minFl, min_eq_left (le_of_lt h), h]

theorem setCurrent_same (a : Aggregator) (sym : Symbol) (o : OHLC) :
    (setCurrent a sym o).current sym = some o := by
  simp [setCurrent]

theorem setCurrent_other (a : Aggregator) {sym s : Symbol} (o : OHLC)
    (h : s ≠ sym) : (setCurrent a sym o).current s = a.current s := by
  simp [setCurrent, h]

theorem setCurrent_interval (a : Aggregator) (sym : Symbol) (o : OHLC) :
    (setCurrent a sym o).interval = a.interval := rfl

/-- `Process` on a symbol with no open candle: nothing is emitted, a fresh
candle opens. -/
theorem process_fresh {a : Aggregator} {t : Tick}
    (h : a.current t.Symbol = none) :
    Process a none t =
      (Except.ok none, setCurrent a t.Symbol (newCandle a.interval t)) := by
  simp [Process, h, newCandle]

/-- `Process` when the tick lands strictly after the open candle's close
time: the open candle is emitted unchanged and a fresh candle opens. -/
theorem process_roll {a : Aggregator} {t : Tick} {o : OHLC}
    (h : a.current t.Symbol = some o) (hlt : o.CloseTime < t.Timestamp) :
    Process a none t =
      (Except.ok (some o), setCurrent a t.Symbol (newCandle a.interval t)) := by
  simp [Process, h, shouldStartNewCandle, hlt, newCandle]

/-- `Process` when the tick lands at or before the open candle's close
time: nothing is emitted, the candle is extended. -/
theorem process_extend {a : Aggregator} {t : Tick} {o : OHLC}
    (h : a.current t.Symbol = some o) (hle : t.Timestamp ≤ o.CloseTime) :
    Process a none t =
      (Except.ok none, setCurrent a t.Symbol (extendCandle o t)) := by
  simp [Process, h, shouldStartNewCandle, not_lt.mpr hle, extendCandle]

theorem runTicks_cons (a : Aggregator) (t : Tick) (ts : List Tick) :
    runTicks a (t :: ts) =
      match (Process a none t).1 with
      | Except.ok (some o) =>
        ((runTicks (Process a none t).2 ts).1,
          o :: (runTicks (Process a none t).2 ts).2)
      | _ => runTicks (Process a none t).2 ts := by
  cases h : (Process a none t).1 with
  | error e => simp [runTicks, h]
  | ok o =>
    cases o with
    | none => simp [runTicks, h]
    | some o => simp [runTicks, h]

end candlestick

theorem runTicks_cons_emit {a a2 : candlestick.Aggregator} {t : candlestick.Tick}
    {o : candlestick.OHLC} (ts : List candlestick.Tick)
    (h : candlestick.Process a none t = (Except.ok (some o), a2)) :
    candlestick.runTicks a (t :: ts) =
      ((candlestick.runTicks a2 ts).1, o :: (candlestick.runTicks a2 ts).2) := by
  rw [candlestick.runTicks_cons, h]

theorem runTicks_cons_silent {a a2 : candlestick.Aggregator} {t : candlestick.Tick}
    (ts : List candlestick.Tick)
    (h : candlestick.Process a none t = (Except.ok none, a2)) :
    candlestick.runTicks a (t :: ts) = candlestick.runTicks a2 ts := by
  rw [candlestick.runTicks_cons, h]

/-! Claim theorems for the aggregator. -/

/-- C6: when `StoreTick` fails, `Process` returns that error and the
aggregator's open-OHLC state is exactly the input state — the tick is
dropped from aggregation, so no window is created, closed or extended by
the call. -/
theorem storeTick_failure_drops_tick (a : candlestick.Aggregator)
    (t : candlestick.Tick) (msg : String) :
    candlestick.Process a (some msg) t =
      (Except.error ("failed to store tick: " ++ msg), a) ∧
    ∀ s, (candlestick.Process a (some msg) t).2.current s = a.current s :=
  ⟨rfl, fun _ => rfl⟩

/-- C1 counterexample: with the window `[0, 60)` open for BTCUSDT, the tick
whose timestamp is exactly `closeTime = 60` does **not** start a new window:
`Process` emits nothing and folds the tick's price and quantity into the
still-open window (the code tests `timestamp.After(closeTime)`, a strict
comparison). -/
theorem tick_at_closeTime_extends :
    (candlestick.Process agg0 none tickAtClose).1 = Except.ok none ∧
    (candlestick.Process agg0 none tickAtClose).2.current "BTCUSDT" =
      some { Symbol := "BTCUSDT", Open := 100, High := 200, Low := 90,
             Close := 200, Volume := 5, OpenTime := 0, CloseTime := 60 } := by
  have h : agg0.current tickAtClose.Symbol = some W0 := by decide
  have hle : tickAtClose.Timestamp ≤ W0.CloseTime := by decide
  rw [candlestick.process_extend h hle]
  refine ⟨rfl, ?_⟩
  show (candlestick.setCurrent agg0 tickAtClose.Symbol
      (candlestick.extendCandle W0 tickAtClose)).current "BTCUSDT" = _
  norm_num [candlestick.setCurrent, candlestick.extendCandle,
    candlestick.maxFl, candlestick.minFl, W0, tickAtClose]

/-- C1 (amended): rollover is strict. A tick strictly after the open
window's `closeTime` closes it (the closed OHLC is returned) and starts a
new window; a tick at or before `closeTime` — in particular exactly at
`closeTime`, or at `openTime` — extends the current window without closing
it, so windows are effectively closed on the right: `[openTime, closeTime]`. -/
theorem window_boundary (a : candlestick.Aggregator) (t : candlestick.Tick)
    (o : candlestick.OHLC) (h : a.current t.Symbol = some o) :
    (o.CloseTime < t.Timestamp →
      (candlestick.Process a none t).1 = Except.ok (some o) ∧
      (candlestick.Process a none t).2.current t.Symbol =
        some (candlestick.newCandle a.interval t)) ∧
    (t.Timestamp ≤ o.CloseTime →
      (candlestick.Process a none t).1 = Except.ok none ∧
      (candlestick.Process a none t).2.current t.Symbol =
        some (candlestick.extendCandle o t)) := by
  constructor
  · intro hlt
    rw [candlestick.process_roll h hlt]
    exact ⟨rfl, candlestick.setCurrent_same _ _ _⟩
  · intro hle
    rw [candlestick.process_extend h hle]
    exact ⟨rfl, candlestick.setCurrent_same _ _ _⟩

theorem window_boundary_witness :
    (candlestick.Process agg0 none tickAfterClose).1 = Except.ok (some W0) :=
  ((window_boundary agg0 tickAfterClose W0 (by decide)).1 (by decide)).1

/-- C2: `Process` implements the specified fold. When the branch that starts
a new window is taken, the returned completed value is exactly the previous
open entry (none of the triggering tick folded in), and the new open candle
has all four prices equal to the tick's price, volume equal to the tick's
quantity, `openTime` equal to the timestamp truncated down to a multiple of
the interval, and `closeTime = openTime + interval`. When the extend branch
is taken, `high`/`low` are the max/min with the tick's price, `close` is the
tick's price, `volume` grows by the tick's quantity, and `open`, `openTime`,
`closeTime`, `symbol` are untouched. -/
theorem process_fold (a : candlestick.Aggregator) (t : candlestick.Tick)
    (hI : 0 < a.interval) :
    (((a.current t.Symbol).isNone ||
        candlestick.shouldStartNewCandle t.Timestamp (a.current t.Symbol)) = true →
      (candlestick.Process a none t).1 = Except.ok (a.current t.Symbol) ∧
      ∃ W, (candlestick.Process a none t).2.current t.Symbol = some W ∧
        W.Open = t.Price ∧ W.High = t.Price ∧ W.Low = t.Price ∧
        W.Close = t.Price ∧ W.Volume = t.Quantity ∧
        W.CloseTime = W.OpenTime + a.interval ∧
        (∃ k : Int, W.OpenTime = a.interval * k) ∧
        W.OpenTime ≤ t.Timestamp ∧ t.Timestamp < W.OpenTime + a.interval) ∧
    (((a.current t.Symbol).isNone ||
        candlestick.shouldStartNewCandle t.Timestamp (a.current t.Symbol)) = false →
      ∃ o, a.current t.Symbol = some o ∧
        (candlestick.Process a none t).1 = Except.ok none ∧
        (candlestick.Process a none t).2.current t.Symbol =
          some (candlestick.extendCandle o t) ∧
        (candlestick.extendCandle o t).High = max o.High t.Price ∧
        (candlestick.extendCandle o t).Low = min o.Low t.Price ∧
        (candlestick.extendCandle o t).Close = t.Price ∧
        (candlestick.extendCandle o t).Volume = o.Volume + t.Quantity ∧
        (candlestick.extendCandle o t).Open = o.Open ∧
        (candlestick.extendCandle o t).OpenTime = o.OpenTime ∧
        (candlestick.extendCandle o t).CloseTime = o.CloseTime ∧
        (candlestick.extendCandle o t).Symbol = o.Symbol) := by
  constructor
  · intro hcond
    have hP : candlestick.Process a none t =
        (Except.ok (a.current t.Symbol),
          candlestick.setCurrent a t.Symbol (candlestick.newCandle a.interval t)) := by
      simp [candlestick.Process, hcond, candlestick.newCandle]
    rw [hP]
    refine ⟨rfl, candlestick.newCandle a.interval t,
      candlestick.setCurrent_same _ _ _, rfl, rfl, rfl, rfl, rfl, rfl,
      ⟨t.Timestamp / a.interval, candlestick.truncate_eq_mul hI⟩,
      candlestick.truncate_le hI, candlestick.lt_truncate_add hI⟩
  · intro hcond
    rcases Bool.or_eq_false_iff.mp hcond with ⟨h1, h2⟩
    rcases hc : a.current t.Symbol with _ | o
    · rw [hc] at h1; simp at h1
    · rw [hc] at h2
      have hle : t.Timestamp ≤ o.CloseTime := by
        by_contra hlt
        simp [candlestick.shouldStartNewCandle, lt_of_not_le hlt] at h2
      rw [candlestick.process_extend hc hle]
      exact ⟨o, rfl, rfl, candlestick.setCurrent_same _ _ _,
        candlestick.maxFl_eq_max o.High t.Price,
        candlestick.minFl_eq_min o.Low t.Price, rfl, rfl, rfl, rfl, rfl, rfl⟩

theorem process_fold_witness :
    (candlestick.Process agg0 none tickAfterClose).1 =
      Except.ok (agg0.current tickAfterClose.Symbol) :=
  ((process_fold agg0 tickAfterClose (by decide)).1 (by decide)).1

/-- C10: `Process` touches only its tick's symbol. Every other symbol's
entry (existence and all field values) is unchanged by the call, any
returned closed OHLC carries the tick's symbol, and the per-entry symbol
invariant is preserved. `storeRes` is arbitrary, so this holds on the
storage-failure path too. -/
theorem process_frame (a : candlestick.Aggregator) (storeRes : Option String)
    (t : candlestick.Tick)
    (hwf : ∀ s o, a.current s = some o → o.Symbol = s) :
    (∀ s, s ≠ t.Symbol →
      (candlestick.Process a storeRes t).2.current s = a.current s) ∧
    (∀ o, (candlestick.Process a storeRes t).1 = Except.ok (some o) →
      o.Symbol = t.Symbol) ∧
    (∀ s o, (candlestick.Process a storeRes t).2.current s = some o →
      o.Symbol = s) := by
  cases storeRes with
  | some msg =>
    refine ⟨fun s _ => rfl, ?_, hwf⟩
    intro o h
    simp [candlestick.Process] at h
  | none =>
    rcases hc : a.current t.Symbol with _ | o₀
    · rw [candlestick.process_fresh hc]
      refine ⟨fun s hs => candlestick.setCurrent_other _ _ hs, ?_, ?_⟩
      · intro o h; simp at h
      · intro s o h
        by_cases hs : s = t.Symbol
        · subst hs
          rw [candlestick.setCurrent_same] at h
          cases h
          rfl
        · rw [candlestick.setCurrent_other _ _ hs] at h
          exact hwf s o h
    · by_cases hb : o₀.CloseTime < t.Timestamp
      · rw [candlestick.process_roll hc hb]
        refine ⟨fun s hs => candlestick.setCurrent_other _ _ hs, ?_, ?_⟩
        · intro o h
          cases h
          exact hwf _ _ hc
        · intro s o h
          by_cases hs : s = t.Symbol
          · subst hs
            rw [candlestick.setCurrent_same] at h
            cases h
            rfl
          · rw [candlestick.setCurrent_other _ _ hs] at h
            exact hwf s o h
      · rw [candlestick.process_extend hc (le_of_not_lt hb)]
        refine ⟨fun s hs => candlestick.setCurrent_other _ _ hs, ?_, ?_⟩
        · intro o h; simp at h
        · intro s o h
          by_cases hs : s = t.Symbol
          · subst hs
            rw [candlestick.setCurrent_same] at h
            cases h
            simpa [candlestick.extendCandle] using hwf _ _ hc
          · rw [candlestick.setCurrent_other _ _ hs] at h
            exact hwf s o h

theorem process_frame_witness :
    (candlestick.Process agg0 none tickAfterClose).2.current "ETHUSDT" =
      agg0.current "ETHUSDT" := by
  have hwf : ∀ s o, agg0.current s = some o → o.Symbol = s := by
    intro s o h
    by_cases hs : s = "BTCUSDT"
    · subst hs
      simp [agg0] at h
      rw [← h]
      rfl
    · simp [agg0, hs] at h
  exact (process_frame agg0 none tickAfterClose hwf).1 "ETHUSDT" (by decide)

/-! Helper lemmas for the fan-out broker. -/

theorem sendAll_apply (cap : Nat) (o : candlestick.OHLC) :
    ∀ (chans : List Nat) (qm : streaming.QueueMap) (c : Nat),
      streaming.sendAll cap o chans qm c =
        (fun q => streaming.trySend cap q o)^[chans.count c] (qm c) := by
  intro chans
  induction chans with
  | nil => intro qm c; simp [streaming.sendAll]
  | cons x rest ih =>
    intro qm c
    rw [streaming.sendAll, ih]
    by_cases hc : c = x
    · subst hc
      simp [List.count_cons, Function.iterate_succ_apply]
    · simp [List.count_cons, hc, Ne.symm hc]

theorem removeFirst_not_mem {ch : Nat} :
    ∀ {l : List Nat}, ch ∉ l → streaming.removeFirst l ch = l := by
  intro l
  induction l with
  | nil => intro; rfl
  | cons x xs ih =>
    intro h
    rw [List.mem_cons, not_or] at h
    rw [streaming.removeFirst, if_neg (fun hx => h.1 (Eq.symm hx)), ih h.2]

theorem removeFirst_append_self {ch : Nat} :
    ∀ {l : List Nat}, ch ∉ l → streaming.removeFirst (l ++ [ch]) ch = l := by
  intro l
  induction l with
  | nil => intro; simp [streaming.removeFirst]
  | cons x xs ih =>
    intro h
    rw [List.mem_cons, not_or] at h
    rw [List.cons_append, streaming.removeFirst,
      if_neg (fun hx => h.1 (Eq.symm hx)), ih h.2]

theorem removeFirst_append_perm (ch : Nat) :
    ∀ l : List Nat, List.Perm (streaming.removeFirst (l ++ [ch]) ch) l := by
  intro l
  induction l with
  | nil => simp [streaming.removeFirst]
  | cons x xs ih =>
    by_cases hx : x = ch
    · subst hx
      rw [List.cons_append, streaming.removeFirst, if_pos rfl]
      exact List.perm_append_singleton x xs
    · rw [List.cons_append, streaming.removeFirst, if_neg hx]
      exact List.Perm.cons x ih

theorem removeFirst_first_match (ch : Nat) :
    ∀ (l₁ l₂ : List Nat), ch ∉ l₁ →
      streaming.removeFirst (l₁ ++ ch :: l₂) ch = l₁ ++ l₂ := by
  intro l₁
  induction l₁ with
  | nil => intro l₂ _; simp [streaming.removeFirst]
  | cons x xs ih =>
    intro l₂ h
    rw [List.mem_cons, not_or] at h
    rw [List.cons_append, streaming.removeFirst,
      if_neg (fun hx => h.1 (Eq.symm hx)), ih l₂ h.2, List.cons_append]

/-! Claim theorems for the fan-out broker. -/

/-- C4 (the code contradicts the documented cap): the broker's `Subscribe`
performs no capacity check. With `maxChannels = 1` and one subscription
already active for BTCUSDT, a further subscribe attempt is not rejected —
`Subscribe` has no error return at all — and the registry grows to two
active subscriptions, past the configured maximum. -/
theorem subscribe_has_no_capacity_check :
    (streaming.Subscribe svcFull "BTCUSDT" 1).subscribers "BTCUSDT" = [0, 1] ∧
    svcFull.maxChannels = 1 ∧
    ((streaming.Subscribe svcFull "BTCUSDT" 1).subscribers "BTCUSDT").length = 2 := by
  refine ⟨?_, rfl, ?_⟩ <;> decide

/-- C5: publishing a closed OHLC attempts one non-blocking enqueue per
registered subscriber of its symbol: `Stream` never returns an error, the
aggregator component of the pipeline state is untouched, queues not
registered for the symbol are untouched, and each queue's new content
depends only on its own previous content (one `trySend` — append if below
capacity, drop if full — per occurrence in the registry), so a drop for one
subscriber changes nothing for any other. -/
theorem stream_drop_on_full (s : streaming.Service) (ps : streaming.PipeState)
    (o : candlestick.OHLC) :
    (streaming.publishOhlc s ps o).1 = none ∧
    (streaming.publishOhlc s ps o).2.agg = ps.agg ∧
    (∀ c, c ∉ s.subscribers o.Symbol →
      (streaming.publishOhlc s ps o).2.queues c = ps.queues c) ∧
    (∀ c, (streaming.publishOhlc s ps o).2.queues c =
      (fun q => streaming.trySend s.channelSize q o)^[(s.subscribers o.Symbol).count c]
        (ps.queues c)) := by
  refine ⟨rfl, rfl, ?_, ?_⟩
  · intro c hc
    have := sendAll_apply s.channelSize o (s.subscribers o.Symbol) ps.queues c
    rw [List.count_eq_zero_of_not_mem hc] at this
    exact this
  · intro c
    exact sendAll_apply s.channelSize o (s.subscribers o.Symbol) ps.queues c

/-- C9 counterexample: when the queue being subscribed is already present
(duplicates are permitted), `subscribe` then `unsubscribe` with that queue
does not restore the registry: `unsubscribe` removes the **first** matching
entry, so the symbol's list changes from `[7, 8]` to `[8, 7]`. -/
theorem subscribe_unsubscribe_changes_registry :
    (streaming.unsubscribe (streaming.Subscribe svcDup "BTCUSDT" 7) "BTCUSDT" 7).subscribers
        "BTCUSDT" = [8, 7] ∧
    svcDup.subscribers "BTCUSDT" = [7, 8] ∧
    (streaming.unsubscribe (streaming.Subscribe svcDup "BTCUSDT" 7) "BTCUSDT" 7).subscribers
        "BTCUSDT" ≠ svcDup.subscribers "BTCUSDT" := by
  refine ⟨?_, ?_, ?_⟩ <;> decide

/-- C9 (amended): `unsubscribe` removes exactly the first entry identical
to the queue and leaves the registry unchanged when no entry matches; the
`subscribe`-then-`unsubscribe` round trip restores the registry exactly
when the queue was not already subscribed for that symbol, and in every
case restores each symbol's subscriber list up to permutation. -/
theorem subscribe_unsubscribe_roundtrip (s : streaming.Service)
    (sym : candlestick.Symbol) (ch : Nat) :
    (ch ∉ s.subscribers sym →
      streaming.unsubscribe (streaming.Subscribe s sym ch) sym ch = s) ∧
    (∀ s2, List.Perm
      ((streaming.unsubscribe (streaming.Subscribe s sym ch) sym ch).subscribers s2)
      (s.subscribers s2)) ∧
    (ch ∉ s.subscribers sym → streaming.unsubscribe s sym ch = s) ∧
    (∀ l₁ l₂, s.subscribers sym = l₁ ++ ch :: l₂ → ch ∉ l₁ →
      (streaming.unsubscribe s sym ch).subscribers sym = l₁ ++ l₂) := by
  obtain ⟨mx, cs, subs⟩ := s
  refine ⟨?_, ?_, ?_, ?_⟩
  · intro hmem
    simp only [streaming.Subscribe, streaming.unsubscribe,
      streaming.Service.mk.injEq] at hmem ⊢
    refine ⟨trivial, trivial, ?_⟩
    funext s2
    by_cases h2 : s2 = sym
    · subst h2
      simp [removeFirst_append_self hmem]
    · simp [h2]
  · intro s2
    by_cases h2 : s2 = sym
    · subst h2
      have h : (streaming.unsubscribe
            (streaming.Subscribe ⟨mx, cs, subs⟩ s2 ch) s2 ch).subscribers s2 =
          streaming.removeFirst (subs s2 ++ [ch]) ch := by
        simp [streaming.Subscribe, streaming.unsubscribe]
      rw [h]
      exact removeFirst_append_perm ch (subs s2)
    · have h : (streaming.unsubscribe
            (streaming.Subscribe ⟨mx, cs, subs⟩ sym ch) sym ch).subscribers s2 =
          subs s2 := by
        simp [streaming.Subscribe, streaming.unsubscribe, h2]
      rw [h]
  · intro hmem
    simp only [streaming.unsubscribe, streaming.Service.mk.injEq] at hmem ⊢
    refine ⟨trivial, trivial, ?_⟩
    funext s2
    by_cases h2 : s2 = sym
    · subst h2
      simp [removeFirst_not_mem hmem]
    · simp [h2]
  · intro l₁ l₂ heq hnot
    simp only [streaming.unsubscribe] at heq ⊢
    simp [heq, removeFirst_first_match ch l₁ l₂ hnot]

/-! Helper lemmas for the instrumented aggregator. -/

theorem gSet_same (a : candlestick.GAggregator) (sym : candlestick.Symbol)
    (v : candlestick.OHLC × List candlestick.Tick) :
    (candlestick.gSet a sym v).current sym = some v := by
  simp [candlestick.gSet]

theorem gSet_other (a : candlestick.GAggregator) {sym s : candlestick.Symbol}
    (v : candlestick.OHLC × List candlestick.Tick) (h : s ≠ sym) :
    (candlestick.gSet a sym v).current s = a.current s := by
  simp [candlestick.gSet, h]

theorem processG_fresh {a : candlestick.GAggregator} {t : candlestick.Tick}
    (h : a.current t.Symbol = none) :
    candlestick.ProcessG a t =
      (none, candlestick.gSet a t.Symbol
        (candlestick.newCandle a.interval t, [t])) := by
  simp [candlestick.ProcessG, h, candlestick.newCandle]

theorem processG_roll {a : candlestick.GAggregator} {t : candlestick.Tick}
    {o : candlestick.OHLC} {c : List candlestick.Tick}
    (h : a.current t.Symbol = some (o, c)) (hlt : o.CloseTime < t.Timestamp) :
    candlestick.ProcessG a t =
      (some (o, c), candlestick.gSet a t.Symbol
        (candlestick.newCandle a.interval t, [t])) := by
  simp [candlestick.ProcessG, h, candlestick.shouldStartNewCandle, hlt,
    candlestick.newCandle]

theorem processG_extend {a : candlestick.GAggregator} {t : candlestick.Tick}
    {o : candlestick.OHLC} {c : List candlestick.Tick}
    (h : a.current t.Symbol = some (o, c)) (hle : t.Timestamp ≤ o.CloseTime) :
    candlestick.ProcessG a t =
      (none, candlestick.gSet a t.Symbol
        (candlestick.extendCandle o t, c ++ [t])) := by
  simp [candlestick.ProcessG, h, candlestick.shouldStartNewCandle,
    not_lt.mpr hle, candlestick.extendCandle]

theorem projG_gSet (a : candlestick.GAggregator) (sym : candlestick.Symbol)
    (v : candlestick.OHLC × List candlestick.Tick) :
    candlestick.projG (candlestick.gSet a sym v) =
      candlestick.setCurrent (candlestick.projG a) sym v.1 := by
  simp only [candlestick.projG, candlestick.gSet, candlestick.setCurrent]
  congr 1
  funext s
  by_cases h : s = sym <;> simp [h]

theorem processG_proj (a : candlestick.GAggregator) (t : candlestick.Tick) :
    candlestick.Process (candlestick.projG a) none t =
      (Except.ok (((candlestick.ProcessG a t).1).map Prod.fst),
        candlestick.projG (candlestick.ProcessG a t).2) := by
  have hproj : (candlestick.projG a).current t.Symbol =
      (a.current t.Symbol).map Prod.fst := rfl
  rcases hc : a.current t.Symbol with _ | ⟨o, c⟩
  · have h2 : (candlestick.projG a).current t.Symbol = none := by
      rw [hproj, hc]; rfl
    rw [candlestick.process_fresh h2, processG_fresh hc, projG_gSet]
    rfl
  · have h2 : (candlestick.projG a).current t.Symbol = some o := by
      rw [hproj, hc]; rfl
    by_cases hb : o.CloseTime < t.Timestamp
    · rw [candlestick.process_roll h2 hb, processG_roll hc hb, projG_gSet]
      rfl
    · rw [candlestick.process_extend h2 (le_of_not_lt hb),
        processG_extend hc (le_of_not_lt hb), projG_gSet]
      rfl

theorem runG_cons (a : candlestick.GAggregator) (t : candlestick.Tick)
    (ts : List candlestick.Tick) :
    candlestick.runG a (t :: ts) =
      match (candlestick.ProcessG a t).1 with
      | some p => ((candlestick.runG (candlestick.ProcessG a t).2 ts).1,
          p :: (candlestick.runG (candlestick.ProcessG a t).2 ts).2)
      | none => candlestick.runG (candlestick.ProcessG a t).2 ts := by
  cases h : (candlestick.ProcessG a t).1 with
  | none => simp [candlestick.runG, h]
  | some p => simp [candlestick.runG, h]

theorem runG_proj : ∀ (ticks : List candlestick.Tick) (a : candlestick.GAggregator),
    (candlestick.runG a ticks).2.map Prod.fst =
      (candlestick.runTicks (candlestick.projG a) ticks).2 ∧
    candlestick.projG (candlestick.runG a ticks).1 =
      (candlestick.runTicks (candlestick.projG a) ticks).1 := by
  intro ticks
  induction ticks with
  | nil => intro a; exact ⟨rfl, rfl⟩
  | cons t ts ih =>
    intro a
    have hP := processG_proj a t
    rcases hstep : (candlestick.ProcessG a t).1 with _ | p
    · rw [hstep] at hP
      have hplain := @runTicks_cons_silent (candlestick.projG a)
        (candlestick.projG (candlestick.ProcessG a t).2) t ts (by
          rw [hP]; rfl)
      rw [runG_cons, hstep, hplain]
      exact ih (candlestick.ProcessG a t).2
    · rw [hstep] at hP
      have hplain := @runTicks_cons_emit (candlestick.projG a)
        (candlestick.projG (candlestick.ProcessG a t).2) t p.1 ts
        (by rw [hP]; rfl)
      rw [runG_cons, hstep, hplain]
      refine ⟨?_, (ih (candlestick.ProcessG a t).2).2⟩
      simp only [List.map_cons]
      rw [(ih (candlestick.ProcessG a t).2).1]

theorem processG_invariant {a : candlestick.GAggregator} {t : candlestick.Tick}
    (hInv : candlestick.InvG a) (hq : 0 ≤ t.Quantity) :
    candlestick.InvG (candlestick.ProcessG a t).2 ∧
    (∀ p, (candlestick.ProcessG a t).1 = some p → candlestick.GoodPair p) := by
  have hfreshGood : candlestick.GoodPair
      (candlestick.newCandle a.interval t, [t]) := by
    refine ⟨?_, ?_, hq, ?_⟩ <;> simp [candlestick.newCandle, candlestick.GoodPair]
  have hfreshInv : ∀ s p,
      (candlestick.gSet a t.Symbol
        (candlestick.newCandle a.interval t, [t])).current s = some p →
      p.1.Symbol = s ∧ candlestick.GoodPair p := by
    intro s p hp
    by_cases hs : s = t.Symbol
    · subst hs
      rw [gSet_same] at hp
      cases hp
      exact ⟨rfl, hfreshGood⟩
    · rw [gSet_other _ _ hs] at hp
      exact hInv s p hp
  rcases hc : a.current t.Symbol with _ | ⟨o, c⟩
  · rw [processG_fresh hc]
    exact ⟨hfreshInv, by intro p hp; cases hp⟩
  · by_cases hb : o.CloseTime < t.Timestamp
    · rw [processG_roll hc hb]
      refine ⟨hfreshInv, ?_⟩
      intro p hp
      cases hp
      exact (hInv _ _ hc).2
    · rw [processG_extend hc (le_of_not_lt hb)]
      obtain ⟨hsym, hlow, hhigh, hvol, hsum⟩ := hInv _ _ hc
      have hGood : candlestick.GoodPair
          (candlestick.extendCandle o t, c ++ [t]) := by
        refine ⟨?_, ?_, ?_, ?_⟩
        · show candlestick.minFl o.Low t.Price ≤ min o.Open t.Price
          rw [candlestick.minFl_eq_min]
          exact le_min
            (le_trans (min_le_left _ _) (le_trans hlow (min_le_left _ _)))
            (min_le_right _ _)
        · show max o.Open t.Price ≤ candlestick.maxFl o.High t.Price
          rw [candlestick.maxFl_eq_max]
          exact max_le_max (le_trans (le_max_left _ _) hhigh) (le_refl _)
        · show 0 ≤ o.Volume + t.Quantity
          exact add_nonneg hvol hq
        · show o.Volume + t.Quantity = ((c ++ [t]).map candlestick.Tick.Quantity).sum
          rw [hsum]
          simp
      refine ⟨?_, by intro p hp; cases hp⟩
      intro s p hp
      by_cases hs : s = t.Symbol
      · subst hs
        rw [gSet_same] at hp
        cases hp
        refine ⟨?_, hGood⟩
        show o.Symbol = t.Symbol
        exact hsym
      · rw [gSet_other _ _ hs] at hp
        exact hInv s p hp

theorem runG_invariant : ∀ (ticks : List candlestick.Tick)
    (a : candlestick.GAggregator),
    (∀ t ∈ ticks, 0 ≤ t.Quantity) → candlestick.InvG a →
    candlestick.InvG (candlestick.runG a ticks).1 ∧
    ∀ p ∈ (candlestick.runG a ticks).2, candlestick.GoodPair p := by
  intro ticks
  induction ticks with
  | nil => intro a _ hInv; exact ⟨hInv, by intro p hp; cases hp⟩
  | cons t ts ih =>
    intro a hq hInv
    have hstep := processG_invariant hInv (hq t (List.mem_cons_self t ts))
    have hrest := ih (candlestick.ProcessG a t).2
      (fun u hu => hq u (List.mem_cons_of_mem t hu)) hstep.1
    rw [runG_cons]
    rcases hc : (candlestick.ProcessG a t).1 with _ | p
    · exact hrest
    · refine ⟨hrest.1, ?_⟩
      intro q hqmem
      rcases List.mem_cons.mp hqmem with hq1 | hq2
      · subst hq1
        exact hstep.2 q hc
      · exact hrest.2 q hq2

theorem processG_symbols {a : candlestick.GAggregator} {t : candlestick.Tick}
    (hsy : ∀ s p, a.current s = some p → p.1.Symbol = s) :
    ∀ s p, (candlestick.ProcessG a t).2.current s = some p → p.1.Symbol = s := by
  have hfresh : ∀ s p,
      (candlestick.gSet a t.Symbol
        (candlestick.newCandle a.interval t, [t])).current s = some p →
      p.1.Symbol = s := by
    intro s p hp
    by_cases hs : s = t.Symbol
    · subst hs
      rw [gSet_same] at hp
      cases hp
      rfl
    · rw [gSet_other _ _ hs] at hp
      exact hsy s p hp
  rcases hc : a.current t.Symbol with _ | ⟨o, c⟩
  · rw [processG_fresh hc]; exact hfresh
  · by_cases hb : o.CloseTime < t.Timestamp
    · rw [processG_roll hc hb]; exact hfresh
    · rw [processG_extend hc (le_of_not_lt hb)]
      intro s p hp
      by_cases hs : s = t.Symbol
      · subst hs
        rw [gSet_same] at hp
        cases hp
        show o.Symbol = t.Symbol
        exact hsy _ _ hc
      · rw [gSet_other _ _ hs] at hp
        exact hsy s p hp

theorem runG_partition : ∀ (ticks : List candlestick.Tick)
    (a : candlestick.GAggregator),
    (∀ s p, a.current s = some p → p.1.Symbol = s) →
    ∀ sym : candlestick.Symbol,
    ((((candlestick.runG a ticks).2.filter
        (fun p => p.1.Symbol = sym)).map Prod.snd).flatten)
      ++ candlestick.contribOf ((candlestick.runG a ticks).1.current sym) =
    candlestick.contribOf (a.current sym) ++
      ticks.filter (fun t => t.Symbol = sym) := by
  intro ticks
  induction ticks with
  | nil =>
    intro a _ sym
    simp [candlestick.runG]
  | cons t ts ih =>
    intro a hsy sym
    have ih2 := ih (candlestick.ProcessG a t).2 (processG_symbols hsy) sym
    rcases hc : a.current t.Symbol with _ | ⟨o, c⟩
    · -- no open candle for this symbol: a fresh window opens, nothing emitted
      rw [runG_cons]
      rw [processG_fresh hc] at ih2 ⊢
      dsimp only at ih2 ⊢
      by_cases hs : sym = t.Symbol
      · subst hs
        rw [gSet_same] at ih2
        rw [ih2, hc]
        simp [candlestick.contribOf, List.filter_cons]
      · rw [gSet_other _ _ hs] at ih2
        rw [ih2]
        have hts : t.Symbol ≠ sym := fun h => hs (Eq.symm h)
        simp [List.filter_cons, hts]
    · by_cases hb : o.CloseTime < t.Timestamp
      · -- rollover: the open pair is emitted, a fresh window opens
        rw [runG_cons]
        rw [processG_roll hc hb] at ih2 ⊢
        dsimp only at ih2 ⊢
        have hosym : o.Symbol = t.Symbol := hsy _ _ hc
        by_cases hs : sym = t.Symbol
        · subst hs
          rw [gSet_same] at ih2
          rw [List.filter_cons, if_pos (by simp [hosym]), List.map_cons,
            List.flatten_cons, List.append_assoc, ih2, hc]
          simp [candlestick.contribOf, List.filter_cons]
        · rw [gSet_other _ _ hs] at ih2
          have hts : t.Symbol ≠ sym := fun h => hs (Eq.symm h)
          rw [List.filter_cons, if_neg (by simp [hosym, hts]), ih2]
          simp [List.filter_cons, hts]
      · -- extend: the tick is folded into the open pair, nothing emitted
        rw [runG_cons]
        rw [processG_extend hc (le_of_not_lt hb)] at ih2 ⊢
        dsimp only at ih2 ⊢
        by_cases hs : sym = t.Symbol
        · subst hs
          rw [gSet_same] at ih2
          rw [ih2, hc]
          simp [candlestick.contribOf, List.filter_cons]
        · rw [gSet_other _ _ hs] at ih2
          rw [ih2]
          have hts : t.Symbol ≠ sym := fun h => hs (Eq.symm h)
          simp [List.filter_cons, hts]

/-- C3: every closed OHLC produced from quantity-nonnegative ticks has
`low ≤ min(open, close)`, `max(open, close) ≤ high` and a nonnegative
volume equal to the sum of the quantities of exactly the ticks folded into
its window. The instrumented run records each window's contributing ticks;
its OHLC projection coincides with the plain `Process` fold, and for each
symbol the recorded contributions of the emitted windows plus the open
window partition precisely that symbol's input ticks, in order. -/
theorem closed_ohlc_volume_and_bounds (I : Int) (ticks : List candlestick.Tick)
    (hq : ∀ t ∈ ticks, 0 ≤ t.Quantity) :
    (∀ p ∈ (candlestick.runG (candlestick.newG I) ticks).2,
        p.1.Low ≤ min p.1.Open p.1.Close ∧
        max p.1.Open p.1.Close ≤ p.1.High ∧
        0 ≤ p.1.Volume ∧
        p.1.Volume = (p.2.map candlestick.Tick.Quantity).sum) ∧
    ((candlestick.runG (candlestick.newG I) ticks).2.map Prod.fst =
      (candlestick.runTicks (candlestick.NewAggregator I) ticks).2) ∧
    (∀ sym : candlestick.Symbol,
      ((((candlestick.runG (candlestick.newG I) ticks).2.filter
          (fun p => p.1.Symbol = sym)).map Prod.snd).flatten) ++
        candlestick.contribOf
          ((candlestick.runG (candlestick.newG I) ticks).1.current sym) =
      ticks.filter (fun t => t.Symbol = sym)) := by
  have hInv0 : candlestick.InvG (candlestick.newG I) := by
    intro s p hp
    simp [candlestick.newG] at hp
  refine ⟨?_, ?_, ?_⟩
  · exact fun p hp => (runG_invariant ticks (candlestick.newG I) hq hInv0).2 p hp
  · have h := (runG_proj ticks (candlestick.newG I)).1
    have heq : candlestick.projG (candlestick.newG I) =
        candlestick.NewAggregator I := rfl
    rw [heq] at h
    exact h
  · intro sym
    have h := runG_partition ticks (candlestick.newG I)
      (fun s p hp => by simp [candlestick.newG] at hp) sym
    simpa [candlestick.newG, candlestick.contribOf] using h

theorem closed_ohlc_volume_and_bounds_witness :
    (candlestick.runG (candlestick.newG 60) ticksA).2.map Prod.fst =
      (candlestick.runTicks (candlestick.NewAggregator 60) ticksA).2 :=
  (closed_ohlc_volume_and_bounds 60 ticksA (by decide)).2.1

/-! Helper lemmas for the time-grid claims. -/

theorem emittedFor_cons_pos {o : candlestick.OHLC} {sym : candlestick.Symbol}
    (l : List candlestick.OHLC) (h : o.Symbol = sym) :
    candlestick.emittedFor sym (o :: l) = o :: candlestick.emittedFor sym l := by
  simp [candlestick.emittedFor, List.filter_cons, h]

theorem emittedFor_cons_neg {o : candlestick.OHLC} {sym : candlestick.Symbol}
    (l : List candlestick.OHLC) (h : o.Symbol ≠ sym) :
    candlestick.emittedFor sym (o :: l) = candlestick.emittedFor sym l := by
  simp [candlestick.emittedFor, List.filter_cons, h]

theorem newCandle_aligned {I : Int} (hI : 0 < I) (t : candlestick.Tick) :
    (candlestick.newCandle I t).OpenTime % I = 0 ∧
    (candlestick.newCandle I t).CloseTime =
      (candlestick.newCandle I t).OpenTime + I :=
  ⟨candlestick.truncate_emod hI, rfl⟩

/-- Main induction for C7: starting from any aligned state, every emitted
window is grid-aligned with width exactly the interval, the per-symbol
emitted `openTime`s are strictly increasing, and (for the induction) the
emitted windows sit strictly between the start state's open window and the
final state's open window. -/
theorem runTicks_aligned : ∀ (ticks : List candlestick.Tick)
    (a : candlestick.Aggregator), 0 < a.interval → candlestick.AlignedState a →
    candlestick.AlignedState (candlestick.runTicks a ticks).1 ∧
    (candlestick.runTicks a ticks).1.interval = a.interval ∧
    (∀ o ∈ (candlestick.runTicks a ticks).2,
      o.OpenTime % a.interval = 0 ∧ o.CloseTime = o.OpenTime + a.interval) ∧
    (∀ sym, List.Chain' (fun o1 o2 => o1.OpenTime < o2.OpenTime)
      (candlestick.emittedFor sym (candlestick.runTicks a ticks).2)) ∧
    (∀ sym o₀, a.current sym = some o₀ →
      ∀ o ∈ candlestick.emittedFor sym (candlestick.runTicks a ticks).2,
        o₀.OpenTime ≤ o.OpenTime) ∧
    (∀ sym o₁, (candlestick.runTicks a ticks).1.current sym = some o₁ →
      (∀ o ∈ candlestick.emittedFor sym (candlestick.runTicks a ticks).2,
        o.OpenTime < o₁.OpenTime) ∧
      ∀ o₀, a.current sym = some o₀ → o₀.OpenTime ≤ o₁.OpenTime) := by
  intro ticks
  induction ticks with
  | nil =>
    intro a hI hA
    refine ⟨hA, rfl, ?_, ?_, ?_, ?_⟩
    · intro o ho; cases ho
    · intro sym; simp [candlestick.runTicks, candlestick.emittedFor]
    · intro sym o₀ _ o ho
      simp [candlestick.runTicks, candlestick.emittedFor] at ho
    · intro sym o₁ h₁
      refine ⟨?_, ?_⟩
      · intro o ho
        simp [candlestick.runTicks, candlestick.emittedFor] at ho
      · intro o₀ h₀
        have h₁a : a.current sym = some o₁ := h₁
        rw [h₀] at h₁a
        cases h₁a
        exact le_refl _
  | cons t ts ih =>
    intro a hI hA
    rcases hc : a.current t.Symbol with _ | o₀
    · -- fresh window, nothing emitted
      have hP := candlestick.process_fresh hc
      have hrun := runTicks_cons_silent ts hP
      set a2 := candlestick.setCurrent a t.Symbol
        (candlestick.newCandle a.interval t) with ha2
      have hA2 : candlestick.AlignedState a2 := by
        intro s o ho
        by_cases hs : s = t.Symbol
        · subst hs
          rw [candlestick.setCurrent_same] at ho
          cases ho
          exact ⟨rfl, (newCandle_aligned hI t).1, (newCandle_aligned hI t).2⟩
        · rw [candlestick.setCurrent_other _ _ hs] at ho
          exact hA s o ho
      have hIH := ih a2 hI hA2
      rw [hrun]
      refine ⟨hIH.1, hIH.2.1, hIH.2.2.1, hIH.2.2.2.1, ?_, ?_⟩
      · intro sym o₀ h₀ o ho
        by_cases hs : sym = t.Symbol
        · subst hs; rw [hc] at h₀; cases h₀
        · exact hIH.2.2.2.2.1 sym o₀
            (by rw [ha2, candlestick.setCurrent_other _ _ hs]; exact h₀) o ho
      · intro sym o₁ h₁
        refine ⟨(hIH.2.2.2.2.2 sym o₁ h₁).1, ?_⟩
        intro o₀ h₀
        by_cases hs : sym = t.Symbol
        · subst hs; rw [hc] at h₀; cases h₀
        · exact (hIH.2.2.2.2.2 sym o₁ h₁).2 o₀
            (by rw [ha2, candlestick.setCurrent_other _ _ hs]; exact h₀)
    · obtain ⟨hsym₀, hgrid₀, hwidth₀⟩ := hA t.Symbol o₀ hc
      by_cases hb : o₀.CloseTime < t.Timestamp
      · -- rollover: o₀ is emitted, a fresh window opens after it
        have hP := candlestick.process_roll hc hb
        have hrun := runTicks_cons_emit ts hP
        set a2 := candlestick.setCurrent a t.Symbol
          (candlestick.newCandle a.interval t) with ha2
        have hA2 : candlestick.AlignedState a2 := by
          intro s o ho
          by_cases hs : s = t.Symbol
          · subst hs
            rw [candlestick.setCurrent_same] at ho
            cases ho
            exact ⟨rfl, (newCandle_aligned hI t).1, (newCandle_aligned hI t).2⟩
          · rw [candlestick.setCurrent_other _ _ hs] at ho
            exact hA s o ho
        have hIH := ih a2 hI hA2
        have hW2 : a2.current t.Symbol =
            some (candlestick.newCandle a.interval t) :=
          candlestick.setCurrent_same _ _ _
        -- the new window opens at or after the closed window's close time
        have hCgrid : o₀.CloseTime % a.interval = 0 := by
          rw [hwidth₀, Int.add_emod, hgrid₀, Int.emod_self]
          simp
        have hlt : o₀.OpenTime < (candlestick.newCandle a.interval t).OpenTime := by
          have h1 : o₀.CloseTime ≤ candlestick.truncate t.Timestamp a.interval :=
            candlestick.le_truncate hI hCgrid (le_of_lt hb)
          have h2 : o₀.OpenTime < o₀.CloseTime := by rw [hwidth₀]; omega
          exact lt_of_lt_of_le h2 h1
        rw [hrun]
        refine ⟨hIH.1, hIH.2.1, ?_, ?_, ?_, ?_⟩
        · intro o ho
          rcases List.mem_cons.mp ho with h1 | h2
          · subst h1; exact ⟨hgrid₀, hwidth₀⟩
          · exact hIH.2.2.1 o h2
        · intro sym
          by_cases hs : sym = t.Symbol
          · subst hs
            rw [emittedFor_cons_pos _ hsym₀]
            rw [List.chain'_cons']
            refine ⟨?_, hIH.2.2.2.1 t.Symbol⟩
            intro b hbmem
            have hbIn := List.mem_of_mem_head? hbmem
            have := hIH.2.2.2.2.1 t.Symbol _ hW2 b hbIn
            exact lt_of_lt_of_le hlt this
          · rw [emittedFor_cons_neg _ (by rw [hsym₀]; exact fun h => hs (Eq.symm h))]
            exact hIH.2.2.2.1 sym
        · intro sym oSt hSt o ho
          by_cases hs : sym = t.Symbol
          · subst hs
            rw [hc] at hSt
            cases hSt
            rw [emittedFor_cons_pos _ hsym₀] at ho
            rcases List.mem_cons.mp ho with h1 | h2
            · subst h1; exact le_refl _
            · have := hIH.2.2.2.2.1 t.Symbol _ hW2 o h2
              exact le_of_lt (lt_of_lt_of_le hlt this)
          · rw [emittedFor_cons_neg _ (by rw [hsym₀]; exact fun h => hs (Eq.symm h))] at ho
            exact hIH.2.2.2.2.1 sym oSt
              (by rw [ha2, candlestick.setCurrent_other _ _ hs]; exact hSt) o ho
        · intro sym o₁ h₁
          by_cases hs : sym = t.Symbol
          · subst hs
            have hfin := hIH.2.2.2.2.2 t.Symbol o₁ h₁
            have hWle : (candlestick.newCandle a.interval t).OpenTime ≤ o₁.OpenTime :=
              hfin.2 _ hW2
            refine ⟨?_, ?_⟩
            · intro o ho
              rw [emittedFor_cons_pos _ hsym₀] at ho
              rcases List.mem_cons.mp ho with h1 | h2
              · subst h1; exact lt_of_lt_of_le hlt hWle
              · exact hfin.1 o h2
            · intro oSt hSt
              rw [hc] at hSt
              cases hSt
              exact le_of_lt (lt_of_lt_of_le hlt hWle)
          · rw [emittedFor_cons_neg _ (by rw [hsym₀]; exact fun h => hs (Eq.symm h))]
            have hfin := hIH.2.2.2.2.2 sym o₁ h₁
            refine ⟨hfin.1, ?_⟩
            intro oSt hSt
            exact hfin.2 oSt
              (by rw [ha2, candlestick.setCurrent_other _ _ hs]; exact hSt)
      · -- extend: the open window keeps its times, nothing emitted
        have hP := candlestick.process_extend hc (le_of_not_lt hb)
        have hrun := runTicks_cons_silent ts hP
        set a2 := candlestick.setCurrent a t.Symbol
          (candlestick.extendCandle o₀ t) with ha2
        have hA2 : candlestick.AlignedState a2 := by
          intro s o ho
          by_cases hs : s = t.Symbol
          · subst hs
            rw [candlestick.setCurrent_same] at ho
            cases ho
            exact ⟨hsym₀, hgrid₀, hwidth₀⟩
          · rw [candlestick.setCurrent_other _ _ hs] at ho
            exact hA s o ho
        have hIH := ih a2 hI hA2
        have hW2 : a2.current t.Symbol =
            some (candlestick.extendCandle o₀ t) :=
          candlestick.setCurrent_same _ _ _
        rw [hrun]
        refine ⟨hIH.1, hIH.2.1, hIH.2.2.1, hIH.2.2.2.1, ?_, ?_⟩
        · intro sym oSt hSt o ho
          by_cases hs : sym = t.Symbol
          · subst hs
            rw [hc] at hSt
            cases hSt
            exact hIH.2.2.2.2.1 t.Symbol _ hW2 o ho
          · exact hIH.2.2.2.2.1 sym oSt
              (by rw [ha2, candlestick.setCurrent_other _ _ hs]; exact hSt) o ho
        · intro sym o₁ h₁
          refine ⟨(hIH.2.2.2.2.2 sym o₁ h₁).1, ?_⟩
          intro oSt hSt
          by_cases hs : sym = t.Symbol
          · subst hs
            rw [hc] at hSt
            cases hSt
            exact (hIH.2.2.2.2.2 t.Symbol o₁ h₁).2
              (candlestick.extendCandle o₀ t) hW2
          · exact (hIH.2.2.2.2.2 sym o₁ h₁).2 oSt
              (by rw [ha2, candlestick.setCurrent_other _ _ hs]; exact hSt)

/-- C7: over any tick sequence fed to `Process` from a fresh aggregator
with positive interval, for every symbol the emitted closed OHLCs have
strictly increasing `openTime`s; every emitted OHLC has an epoch-aligned
`openTime` (a multiple of the interval) and satisfies
`closeTime - openTime = interval` exactly. The tick sequence is arbitrary,
so this covers out-of-order ticks within a window and ticks jumping past
several intervals. -/
theorem emitted_windows_aligned (I : Int) (hI : 0 < I)
    (ticks : List candlestick.Tick) :
    (∀ sym : candlestick.Symbol,
      List.Chain' (fun o1 o2 => o1.OpenTime < o2.OpenTime)
        (candlestick.emittedFor sym
          (candlestick.runTicks (candlestick.NewAggregator I) ticks).2)) ∧
    (∀ o ∈ (candlestick.runTicks (candlestick.NewAggregator I) ticks).2,
      o.OpenTime % I = 0 ∧ o.CloseTime - o.OpenTime = I) := by
  have hA0 : candlestick.AlignedState (candlestick.NewAggregator I) := by
    intro s o ho
    simp [candlestick.NewAggregator] at ho
  have h := runTicks_aligned ticks (candlestick.NewAggregator I) hI hA0
  refine ⟨h.2.2.2.1, ?_⟩
  intro o ho
  have h2 := h.2.2.1 o ho
  have h3 : o.CloseTime = o.OpenTime + I := h2.2
  exact ⟨h2.1, by omega⟩

theorem emitted_windows_aligned_witness :
    List.Chain' (fun o1 o2 => o1.OpenTime < o2.OpenTime)
      (candlestick.emittedFor "BTCUSDT"
        (candlestick.runTicks (candlestick.NewAggregator 60) ticksA).2) :=
  (emitted_windows_aligned 60 (by decide) ticksA).1 "BTCUSDT"

/-! Helper lemmas for the upstream `Connect` retry loop. -/

/-- One iteration of the retry loop when the cancellation context has not
fired: wait (for a retry), dial, and either return, give up on the
endpoint, or recurse. -/
theorem connectEp_step (outcome : String → Nat → binance.AttemptResult)
    (done : Nat → Bool) (base : Nat) (ep : String) (isLast : Bool)
    (k fuel clock : Nat) (h1 : done clock = false)
    (h2 : done (clock + 1) = false) :
    binance.connectEp outcome done base ep isLast k (fuel + 1) clock =
      (match outcome ep k with
      | binance.AttemptResult.ok =>
        ((if k = 0 then [] else [binance.CEv.wait (base * 2 ^ k)]) ++
            [binance.CEv.dial ep k],
          (if k = 0 then clock + 1 else clock + 2),
          some (binance.ConnectOutcome.connected ep k))
      | binance.AttemptResult.dialFail =>
        if fuel = 0 then
          ((if k = 0 then [] else [binance.CEv.wait (base * 2 ^ k)]) ++
              [binance.CEv.dial ep k],
            (if k = 0 then clock + 1 else clock + 2),
            if isLast then some binance.ConnectOutcome.dialExhausted else none)
        else
          ((if k = 0 then [] else [binance.CEv.wait (base * 2 ^ k)]) ++
              binance.CEv.dial ep k ::
                (binance.connectEp outcome done base ep isLast (k + 1) fuel
                  (if k = 0 then clock + 1 else clock + 2)).1,
            (binance.connectEp outcome done base ep isLast (k + 1) fuel
              (if k = 0 then clock + 1 else clock + 2)).2.1,
            (binance.connectEp outcome done base ep isLast (k + 1) fuel
              (if k = 0 then clock + 1 else clock + 2)).2.2)
      | binance.AttemptResult.subFail =>
        if fuel = 0 then
          ((if k = 0 then [] else [binance.CEv.wait (base * 2 ^ k)]) ++
              [binance.CEv.dial ep k],
            (if k = 0 then clock + 1 else clock + 2),
            if isLast then some binance.ConnectOutcome.subExhausted else none)
        else
          ((if k = 0 then [] else [binance.CEv.wait (base * 2 ^ k)]) ++
              binance.CEv.dial ep k ::
                (binance.connectEp outcome done base ep isLast (k + 1) fuel
                  (if k = 0 then clock + 1 else clock + 2)).1,
            (binance.connectEp outcome done base ep isLast (k + 1) fuel
              (if k = 0 then clock + 1 else clock + 2)).2.1,
            (binance.connectEp outcome done base ep isLast (k + 1) fuel
              (if k = 0 then clock + 1 else clock + 2)).2.2)) := by
  rw [binance.connectEp]
  simp only [h1, h2, and_false, Bool.false_eq_true, if_false, ite_false]

/-- With no cancellation and no successful attempt in the remaining retry
window, one endpoint's loop runs the full canonical schedule; it falls
through (`none`) unless this is the last endpoint, where the final failing
attempt returns the matching exhaustion error. -/
theorem connectEp_exhaust (outcome : String → Nat → binance.AttemptResult)
    (done : Nat → Bool) (hnc : ∀ n, done n = false) (base : Nat) (ep : String)
    (isLast : Bool) :
    ∀ (fuel k clock : Nat),
    (∀ m, k ≤ m → m < k + fuel → outcome ep m ≠ binance.AttemptResult.ok) →
    (binance.connectEp outcome done base ep isLast k fuel clock).1 =
      binance.epTrace base ep k fuel ∧
    (fuel = 0 →
      (binance.connectEp outcome done base ep isLast k fuel clock).2.2 = none) ∧
    (isLast = false →
      (binance.connectEp outcome done base ep isLast k fuel clock).2.2 = none) ∧
    (isLast = true → fuel ≠ 0 →
      (binance.connectEp outcome done base ep isLast k fuel clock).2.2 =
          some binance.ConnectOutcome.dialExhausted ∨
      (binance.connectEp outcome done base ep isLast k fuel clock).2.2 =
          some binance.ConnectOutcome.subExhausted) := by
  intro fuel
  induction fuel with
  | zero =>
    intro k clock _
    exact ⟨rfl, fun _ => rfl, fun _ => rfl, fun _ h => absurd rfl h⟩
  | succ fuel ih =>
    intro k clock hfail
    rw [connectEp_step outcome done base ep isLast k fuel clock (hnc clock)
      (hnc (clock + 1))]
    rcases houtk : outcome ep k with _ | _ | _
    · exact absurd houtk (hfail k (le_refl k) (by omega))
    · by_cases hf : fuel = 0
      · subst hf
        simp only [if_pos rfl]
        refine ⟨?_, ?_, ?_, ?_⟩
        · rw [binance.epTrace, binance.epTrace]
          rfl
        · intro h; cases h
        · intro hL
          simp [hL]
        · intro hL _
          rw [hL]
          left
          rfl
      · simp only [if_neg hf]
        have hrest := ih (k + 1) (if k = 0 then clock + 1 else clock + 2)
          (by intro m hm1 hm2; exact hfail m (by omega) (by omega))
        refine ⟨?_, ?_, ?_, ?_⟩
        · rw [binance.epTrace, hrest.1]
        · intro h; cases h
        · exact hrest.2.2.1
        · intro hL _
          exact hrest.2.2.2 hL hf
    · by_cases hf : fuel = 0
      · subst hf
        simp only [if_pos rfl]
        refine ⟨?_, ?_, ?_, ?_⟩
        · rw [binance.epTrace, binance.epTrace]
          rfl
        · intro h; cases h
        · intro hL
          simp [hL]
        · intro hL _
          rw [hL]
          right
          rfl
      · simp only [if_neg hf]
        have hrest := ih (k + 1) (if k = 0 then clock + 1 else clock + 2)
          (by intro m hm1 hm2; exact hfail m (by omega) (by omega))
        refine ⟨?_, ?_, ?_, ?_⟩
        · rw [binance.epTrace, hrest.1]
        · intro h; cases h
        · exact hrest.2.2.1
        · intro hL _
          exact hrest.2.2.2 hL hf

/-- With no cancellation, the loop returns a connection at the first
successful attempt `k'` in the window, after the canonical schedule of the
failed attempts before it. -/
theorem connectEp_success (outcome : String → Nat → binance.AttemptResult)
    (done : Nat → Bool) (hnc : ∀ n, done n = false) (base : Nat) (ep : String)
    (isLast : Bool) :
    ∀ (fuel k clock k' : Nat), k ≤ k' → k' < k + fuel →
    (∀ m, k ≤ m → m < k' → outcome ep m ≠ binance.AttemptResult.ok) →
    outcome ep k' = binance.AttemptResult.ok →
    (binance.connectEp outcome done base ep isLast k fuel clock).1 =
      binance.epTrace base ep k (k' - k + 1) ∧
    (binance.connectEp outcome done base ep isLast k fuel clock).2.2 =
      some (binance.ConnectOutcome.connected ep k') := by
  intro fuel
  induction fuel with
  | zero => intro k clock k' h1 h2; omega
  | succ fuel ih =>
    intro k clock k' h1 h2 hbefore hok
    rw [connectEp_step outcome done base ep isLast k fuel clock (hnc clock)
      (hnc (clock + 1))]
    by_cases hk : k' = k
    · subst hk
      rw [hok]
      constructor
      · rw [binance.epTrace]
        simp [binance.epTrace]
      · rfl
    · have hklt : k < k' := lt_of_le_of_ne h1 (fun h => hk (Eq.symm h))
      have hkfail : outcome ep k ≠ binance.AttemptResult.ok :=
        hbefore k (le_refl k) hklt
      have hfne : fuel ≠ 0 := by omega
      have hrest := ih (k + 1) (if k = 0 then clock + 1 else clock + 2) k'
        (by omega) (by omega)
        (by intro m hm1 hm2; exact hbefore m (by omega) hm2) hok
      have hj : k' - k + 1 = (k' - (k + 1) + 1) + 1 := by omega
      rcases houtk : outcome ep k with _ | _ | _
      · exact absurd houtk hkfail
      · simp only [if_neg hfne]
        refine ⟨?_, hrest.2⟩
        rw [hj, binance.epTrace, hrest.1]
      · simp only [if_neg hfne]
        refine ⟨?_, hrest.2⟩
        rw [hj, binance.epTrace, hrest.1]

/-- Unconditional characterization of one endpoint's loop results: a
fall-through or exhaustion result means every attempt in the window failed;
exhaustion errors arise only on the last endpoint; `noEndpoints` never
arises here; and the cancellation results arise only when the context
fired. -/
theorem connectEp_failures (outcome : String → Nat → binance.AttemptResult)
    (done : Nat → Bool) (base : Nat) (ep : String) (isLast : Bool) :
    ∀ (fuel k clock : Nat),
    (((binance.connectEp outcome done base ep isLast k fuel clock).2.2 = none ∨
      (binance.connectEp outcome done base ep isLast k fuel clock).2.2 =
        some binance.ConnectOutcome.dialExhausted ∨
      (binance.connectEp outcome done base ep isLast k fuel clock).2.2 =
        some binance.ConnectOutcome.subExhausted) →
      ∀ m, k ≤ m → m < k + fuel → outcome ep m ≠ binance.AttemptResult.ok) ∧
    (((binance.connectEp outcome done base ep isLast k fuel clock).2.2 =
        some binance.ConnectOutcome.dialExhausted ∨
      (binance.connectEp outcome done base ep isLast k fuel clock).2.2 =
        some binance.ConnectOutcome.subExhausted) → isLast = true) ∧
    ((binance.connectEp outcome done base ep isLast k fuel clock).2.2 ≠
      some binance.ConnectOutcome.noEndpoints) ∧
    (((binance.connectEp outcome done base ep isLast k fuel clock).2.2 =
        some binance.ConnectOutcome.cancelledTop ∨
      (binance.connectEp outcome done base ep isLast k fuel clock).2.2 =
        some binance.ConnectOutcome.cancelledDelay) →
      ∃ n, done n = true) := by
  intro fuel
  induction fuel with
  | zero =>
    intro k clock
    refine ⟨fun _ m hm1 hm2 => by omega, ?_, ?_, ?_⟩
    · rintro (h | h) <;> cases h
    · intro h; cases h
    · rintro (h | h) <;> cases h
  | succ fuel ih =>
    intro k clock
    rw [binance.connectEp]
    by_cases hd : done clock = true
    · simp only [hd, if_true]
      refine ⟨?_, ?_, ?_, fun _ => ⟨clock, hd⟩⟩
      · rintro (h | h | h) <;> cases h
      · rintro (h | h) <;> cases h
      · intro h; cases h
    · rw [Bool.not_eq_true] at hd
      simp only [hd, Bool.false_eq_true, if_false]
      by_cases hw : k ≠ 0 ∧ done (clock + 1) = true
      · simp only [if_pos hw]
        refine ⟨?_, ?_, ?_, fun _ => ⟨clock + 1, hw.2⟩⟩
        · rintro (h | h | h) <;> cases h
        · rintro (h | h) <;> cases h
        · intro h; cases h
      · simp only [if_neg hw]
        rcases houtk : outcome ep k with _ | _ | _
        · refine ⟨?_, ?_, ?_, ?_⟩
          · rintro (h | h | h) <;> cases h
          · rintro (h | h) <;> cases h
          · intro h; cases h
          · rintro (h | h) <;> cases h
        · by_cases hf : fuel = 0
          · subst hf
            simp only [if_pos rfl]
            by_cases hL : isLast
            · simp only [hL, if_true]
              refine ⟨?_, fun _ => trivial, ?_, ?_⟩
              · intro _ m hm1 hm2
                have : m = k := by omega
                subst this
                rw [houtk]
                intro h; cases h
              · intro h; cases h
              · rintro (h | h) <;> cases h
            · simp only [hL, if_false]
              refine ⟨?_, ?_, ?_, ?_⟩
              · intro _ m hm1 hm2
                have : m = k := by omega
                subst this
                rw [houtk]
                intro h; cases h
              · rintro (h | h) <;> cases h
              · intro h; cases h
              · rintro (h | h) <;> cases h
          · simp only [if_neg hf]
            have hr := ih (k + 1) (if k = 0 then clock + 1 else clock + 2)
            refine ⟨?_, hr.2.1, hr.2.2.1, hr.2.2.2⟩
            intro h m hm1 hm2
            by_cases hmk : m = k
            · subst hmk
              rw [houtk]
              intro hcon; cases hcon
            · exact hr.1 h m (by omega) (by omega)
        · by_cases hf : fuel = 0
          · subst hf
            simp only [if_pos rfl]
            by_cases hL : isLast
            · simp only [hL, if_true]
              refine ⟨?_, fun _ => trivial, ?_, ?_⟩
              · intro _ m hm1 hm2
                have : m = k := by omega
                subst this
                rw [houtk]
                intro h; cases h
              · intro h; cases h
              · rintro (h | h) <;> cases h
            · simp only [hL, if_false]
              refine ⟨?_, ?_, ?_, ?_⟩
              · intro _ m hm1 hm2
                have : m = k := by omega
                subst this
                rw [houtk]
                intro h; cases h
              · rintro (h | h) <;> cases h
              · intro h; cases h
              · rintro (h | h) <;> cases h
          · simp only [if_neg hf]
            have hr := ih (k + 1) (if k = 0 then clock + 1 else clock + 2)
            refine ⟨?_, hr.2.1, hr.2.2.1, hr.2.2.2⟩
            intro h m hm1 hm2
            by_cases hmk : m = k
            · subst hmk
              rw [houtk]
              intro hcon; cases hcon
            · exact hr.1 h m (by omega) (by omega)

theorem connectEps_cons_some {outcome : String → Nat → binance.AttemptResult}
    {done : Nat → Bool} {base mr : Nat} {e : String} {rest : List String}
    {clock : Nat} {out : binance.ConnectOutcome}
    (h : (binance.connectEp outcome done base e rest.isEmpty 0 mr clock).2.2 =
      some out) :
    binance.connectEps outcome done base mr (e :: rest) clock =
      ((binance.connectEp outcome done base e rest.isEmpty 0 mr clock).1,
       (binance.connectEp outcome done base e rest.isEmpty 0 mr clock).2.1,
       out) := by
  simp [binance.connectEps, h]

theorem connectEps_cons_none {outcome : String → Nat → binance.AttemptResult}
    {done : Nat → Bool} {base mr : Nat} {e : String} {rest : List String}
    {clock : Nat}
    (h : (binance.connectEp outcome done base e rest.isEmpty 0 mr clock).2.2 =
      none) :
    binance.connectEps outcome done base mr (e :: rest) clock =
      ((binance.connectEp outcome done base e rest.isEmpty 0 mr clock).1 ++
        (binance.connectEps outcome done base mr rest
          (binance.connectEp outcome done base e rest.isEmpty 0 mr clock).2.1).1,
       (binance.connectEps outcome done base mr rest
         (binance.connectEp outcome done base e rest.isEmpty 0 mr clock).2.1).2.1,
       (binance.connectEps outcome done base mr rest
         (binance.connectEp outcome done base e rest.isEmpty 0 mr clock).2.1).2.2) := by
  simp [binance.connectEps, h]

/-- With no cancellation and every attempt failing, the endpoint loop walks
the whole endpoint list with the full canonical schedule and ends in one of
the two exhaustion errors. -/
theorem connectEps_exhaust (outcome : String → Nat → binance.AttemptResult)
    (done : Nat → Bool) (hnc : ∀ n, done n = false) (base mr : Nat)
    (hmr : mr ≠ 0) :
    ∀ (es : List String) (clock : Nat), es ≠ [] →
    (∀ e ∈ es, ∀ m, m < mr → outcome e m ≠ binance.AttemptResult.ok) →
    (binance.connectEps outcome done base mr es clock).1 =
      binance.fullTrace base mr es ∧
    ((binance.connectEps outcome done base mr es clock).2.2 =
        binance.ConnectOutcome.dialExhausted ∨
     (binance.connectEps outcome done base mr es clock).2.2 =
        binance.ConnectOutcome.subExhausted) := by
  intro es
  induction es with
  | nil => intro clock hne; exact absurd rfl hne
  | cons e rest ih =>
    intro clock _ hfail
    have hfe : ∀ m, 0 ≤ m → m < 0 + mr → outcome e m ≠ binance.AttemptResult.ok := by
      intro m _ hm
      exact hfail e (List.mem_cons_self e rest) m (by omega)
    have hE := connectEp_exhaust outcome done hnc base e rest.isEmpty mr 0 clock hfe
    rcases hrest : rest with _ | ⟨e2, rest2⟩
    · subst hrest
      rcases hE.2.2.2 rfl hmr with hres | hres
      · rw [connectEps_cons_some hres]
        refine ⟨?_, Or.inl rfl⟩
        rw [hE.1]
        simp [binance.fullTrace]
      · rw [connectEps_cons_some hres]
        refine ⟨?_, Or.inr rfl⟩
        rw [hE.1]
        simp [binance.fullTrace]
    · subst hrest
      have hres := hE.2.2.1 rfl
      rw [connectEps_cons_none hres]
      have hr2 := ih ((binance.connectEp outcome done base e
          (e2 :: rest2).isEmpty 0 mr clock).2.1) (by intro h; cases h)
        (fun e3 he3 => hfail e3 (List.mem_cons_of_mem e he3))
      refine ⟨?_, hr2.2⟩
      rw [hE.1, hr2.1]
      simp [binance.fullTrace]

/-- With no cancellation, once the earlier endpoints fail all their
attempts and endpoint `e` first succeeds at attempt `k`, `connectEps`
returns that connection, and the trace is the full schedule of the earlier
endpoints followed by `e`'s schedule cut at the success. -/
theorem connectEps_success (outcome : String → Nat → binance.AttemptResult)
    (done : Nat → Bool) (hnc : ∀ n, done n = false) (base mr : Nat) :
    ∀ (pre : List String) (e : String) (post : List String) (clock k : Nat),
    (∀ e2 ∈ pre, ∀ m, m < mr → outcome e2 m ≠ binance.AttemptResult.ok) →
    k < mr →
    (∀ m, m < k → outcome e m ≠ binance.AttemptResult.ok) →
    outcome e k = binance.AttemptResult.ok →
    (binance.connectEps outcome done base mr (pre ++ e :: post) clock).1 =
      binance.fullTrace base mr pre ++ binance.epTrace base e 0 (k + 1) ∧
    (binance.connectEps outcome done base mr (pre ++ e :: post) clock).2.2 =
      binance.ConnectOutcome.connected e k := by
  intro pre
  induction pre with
  | nil =>
    intro e post clock k _ hk hbefore hok
    have hS := connectEp_success outcome done hnc base e post.isEmpty mr 0
      clock k (by omega) (by omega) (fun m _ hm => hbefore m hm) hok
    rw [List.nil_append]
    rw [connectEps_cons_some hS.2]
    refine ⟨?_, rfl⟩
    rw [hS.1]
    simp [binance.fullTrace]
  | cons p pre' ih =>
    intro e post clock k hpre hk hbefore hok
    have hfp : ∀ m, 0 ≤ m → m < 0 + mr →
        outcome p m ≠ binance.AttemptResult.ok := by
      intro m _ hm
      exact hpre p (List.mem_cons_self p pre') m (by omega)
    have hE := connectEp_exhaust outcome done hnc base p
      (pre' ++ e :: post).isEmpty mr 0 clock hfp
    have hLast : (pre' ++ e :: post).isEmpty = false := by
      rcases pre' with _ | ⟨x, xs⟩ <;> rfl
    rw [List.cons_append]
    rw [connectEps_cons_none (hE.2.2.1 hLast)]
    have hr2 := ih e post ((binance.connectEp outcome done base p
        (pre' ++ e :: post).isEmpty 0 mr clock).2.1) k
      (fun e2 he2 => hpre e2 (List.mem_cons_of_mem p he2)) hk hbefore hok
    refine ⟨?_, hr2.2⟩
    rw [hE.1, hr2.1]
    simp [binance.fullTrace]

/-- Unconditionally, an exhaustion (or fall-through) result of the outer
loop means every endpoint's every attempt failed. -/
theorem connectEps_err (outcome : String → Nat → binance.AttemptResult)
    (done : Nat → Bool) (base mr : Nat) :
    ∀ (es : List String) (clock : Nat),
    ((binance.connectEps outcome done base mr es clock).2.2 =
        binance.ConnectOutcome.dialExhausted ∨
     (binance.connectEps outcome done base mr es clock).2.2 =
        binance.ConnectOutcome.subExhausted ∨
     (binance.connectEps outcome done base mr es clock).2.2 =
        binance.ConnectOutcome.noEndpoints) →
    ∀ e ∈ es, ∀ m, m < mr → outcome e m ≠ binance.AttemptResult.ok := by
  intro es
  induction es with
  | nil => intro clock _ e he; cases he
  | cons e2 rest ih =>
    intro clock hres e3 he3 m hm
    have hF := connectEp_failures outcome done base e2 rest.isEmpty mr 0 clock
    rcases hcep : (binance.connectEp outcome done base e2 rest.isEmpty 0 mr
        clock).2.2 with _ | out
    · rw [connectEps_cons_none hcep] at hres
      rcases List.mem_cons.mp he3 with h1 | h2
      · subst h1
        exact hF.1 (Or.inl hcep) m (by omega) (by omega)
      · exact ih _ hres e3 h2 m hm
    · rw [connectEps_cons_some hcep] at hres
      simp only at hres
      rcases hres with h | h | h
      · subst h
        have hLast := hF.2.1 (Or.inl hcep)
        have hrest : rest = [] := by
          rcases rest with _ | ⟨x, xs⟩
          · rfl
          · cases hLast
        subst hrest
        rcases List.mem_cons.mp he3 with h1 | h2
        · subst h1
          exact hF.1 (Or.inr (Or.inl hcep)) m (by omega) (by omega)
        · cases h2
      · subst h
        have hLast := hF.2.1 (Or.inr hcep)
        have hrest : rest = [] := by
          rcases rest with _ | ⟨x, xs⟩
          · rfl
          · cases hLast
        subst hrest
        rcases List.mem_cons.mp he3 with h1 | h2
        · subst h1
          exact hF.1 (Or.inr (Or.inr hcep)) m (by omega) (by omega)
        · cases h2
      · subst h
        exact absurd hcep (hF.2.2.1)

/-- Unconditionally, a cancelled result of the outer loop means the
cancellation context fired at some checkpoint. -/
theorem connectEps_cancelled (outcome : String → Nat → binance.AttemptResult)
    (done : Nat → Bool) (base mr : Nat) :
    ∀ (es : List String) (clock : Nat),
    ((binance.connectEps outcome done base mr es clock).2.2 =
        binance.ConnectOutcome.cancelledTop ∨
     (binance.connectEps outcome done base mr es clock).2.2 =
        binance.ConnectOutcome.cancelledDelay) →
    ∃ n, done n = true := by
  intro es
  induction es with
  | nil =>
    intro clock hres
    rcases hres with h | h <;> cases h
  | cons e2 rest ih =>
    intro clock hres
    have hF := connectEp_failures outcome done base e2 rest.isEmpty mr 0 clock
    rcases hcep : (binance.connectEp outcome done base e2 rest.isEmpty 0 mr
        clock).2.2 with _ | out
    · rw [connectEps_cons_none hcep] at hres
      exact ih _ hres
    · rw [connectEps_cons_some hcep] at hres
      simp only at hres
      rcases hres with h | h
      · subst h
        exact hF.2.2.2 (Or.inl hcep)
      · subst h
        exact hF.2.2.2 (Or.inr hcep)

/-- Every backoff wait is preemptible: if the context fires during the wait
before a retry, the loop returns `cancelledDelay` at once, emitting only
the wait event and never dialling. -/
theorem connectEp_wait_preempted (outcome : String → Nat → binance.AttemptResult)
    (done : Nat → Bool) (base : Nat) (ep : String) (isLast : Bool)
    (k fuel clock : Nat) (hk : k ≠ 0) (hf : fuel ≠ 0)
    (h1 : done clock = false) (h2 : done (clock + 1) = true) :
    binance.connectEp outcome done base ep isLast k fuel clock =
      ([binance.CEv.wait (base * 2 ^ k)], clock + 2,
        some binance.ConnectOutcome.cancelledDelay) := by
  obtain ⟨fuel', rfl⟩ : ∃ f', fuel = f' + 1 := ⟨fuel - 1, by omega⟩
  rw [binance.connectEp]
  simp [h1, h2, hk]

/-- C8: the `Connect` retry loop. (1) With no cancellation, endpoints are
tried in list order: if every endpoint before `e` fails all `maxRetries`
attempts and `e` first succeeds at attempt `k`, `Connect` returns that
connection, and its event trace is the earlier endpoints' full backoff
schedules followed by `e`'s schedule cut at the accepting attempt — each
retry attempt `k ≥ 1` preceded by a wait of `baseDelay · 2^k`. (2) A
connection error is returned only when every endpoint × every retry
attempt failed. (3) The cancellation returns happen only when the context
fired at a checkpoint. (4) With no cancellation and all attempts failing,
the trace is the complete schedule over all endpoints and the result is
one of the two exhaustion errors. (5) Every backoff wait is preemptible:
cancellation during the wait returns immediately without dialling. -/
theorem connect_retry_spec (outcome : String → Nat → binance.AttemptResult)
    (done : Nat → Bool) :
    (∀ (pre : List String) (e : String) (post : List String) (k : Nat),
      binance.websocketEndpoints = pre ++ e :: post →
      (∀ n, done n = false) →
      (∀ e2 ∈ pre, ∀ m, m < binance.maxRetries →
        outcome e2 m ≠ binance.AttemptResult.ok) →
      k < binance.maxRetries →
      (∀ m, m < k → outcome e m ≠ binance.AttemptResult.ok) →
      outcome e k = binance.AttemptResult.ok →
      (binance.Connect outcome done).1 =
        binance.fullTrace binance.baseDelay binance.maxRetries pre ++
          binance.epTrace binance.baseDelay e 0 (k + 1) ∧
      (binance.Connect outcome done).2.2 =
        binance.ConnectOutcome.connected e k) ∧
    (((binance.Connect outcome done).2.2 =
        binance.ConnectOutcome.dialExhausted ∨
      (binance.Connect outcome done).2.2 =
        binance.ConnectOutcome.subExhausted ∨
      (binance.Connect outcome done).2.2 =
        binance.ConnectOutcome.noEndpoints) →
      ∀ e ∈ binance.websocketEndpoints, ∀ m, m < binance.maxRetries →
        outcome e m ≠ binance.AttemptResult.ok) ∧
    (((binance.Connect outcome done).2.2 =
        binance.ConnectOutcome.cancelledTop ∨
      (binance.Connect outcome done).2.2 =
        binance.ConnectOutcome.cancelledDelay) →
      ∃ n, done n = true) ∧
    ((∀ n, done n = false) →
      (∀ e ∈ binance.websocketEndpoints, ∀ m, m < binance.maxRetries →
        outcome e m ≠ binance.AttemptResult.ok) →
      (binance.Connect outcome done).1 =
        binance.fullTrace binance.baseDelay binance.maxRetries
          binance.websocketEndpoints ∧
      ((binance.Connect outcome done).2.2 =
          binance.ConnectOutcome.dialExhausted ∨
       (binance.Connect outcome done).2.2 =
          binance.ConnectOutcome.subExhausted)) ∧
    (∀ (ep : String) (isLast : Bool) (k fuel clock : Nat),
      k ≠ 0 → fuel ≠ 0 → done clock = false → done (clock + 1) = true →
      binance.connectEp outcome done binance.baseDelay ep isLast k fuel clock =
        ([binance.CEv.wait (binance.baseDelay * 2 ^ k)], clock + 2,
          some binance.ConnectOutcome.cancelledDelay)) := by
  refine ⟨?_, ?_, ?_, ?_, ?_⟩
  · intro pre e post k heq hnc hpre hk hbefore hok
    show (binance.connectEps outcome done binance.baseDelay binance.maxRetries
        binance.websocketEndpoints 0).1 = _ ∧
      (binance.connectEps outcome done binance.baseDelay binance.maxRetries
        binance.websocketEndpoints 0).2.2 = _
    rw [heq]
    exact connectEps_success outcome done hnc binance.baseDelay
      binance.maxRetries pre e post 0 k hpre hk hbefore hok
  · exact connectEps_err outcome done binance.baseDelay binance.maxRetries
      binance.websocketEndpoints 0
  · exact connectEps_cancelled outcome done binance.baseDelay
      binance.maxRetries binance.websocketEndpoints 0
  · intro hnc hfail
    exact connectEps_exhaust outcome done hnc binance.baseDelay
      binance.maxRetries (by decide) binance.websocketEndpoints 0
      (by intro h; cases h) hfail
  · intro ep isLast k fuel clock hkne hfne h1 h2
    exact connectEp_wait_preempted outcome done binance.baseDelay ep isLast
      k fuel clock hkne hfne h1 h2
